import Mathlib

/-!
# Verification of the aduana frequency scheduler (`src/lib/src/freq_scheduler.c`)

A shallow embedding of the frequency-based recrawl scheduler. The schedule is
an ordered key/value table mapping `ScheduleKey = (score, hash)` to a frequency,
kept sorted by the key comparator (score ascending, hash ascending). We model
the table as a sorted association list, the page database as a pure lookup
function, floating point scores and frequencies as rationals, and wall-clock
time as a rational parameter `now` (the C code computes
`difftime(time(0), 0)`).

The embedding follows `freq_scheduler.c`:
  * `freq_scheduler_cursor_write`  — lines 156-185
  * `freq_scheduler_load_simple`   — lines 187-247
  * `freq_scheduler_load_mmap`     — lines 249-300
  * `freq_scheduler_request`       — lines 302-399 (the while loop is
    `freq_scheduler_request_loop`, driven by a fuel argument that the
    wrapper instantiates with more iterations than the loop can take)
  * `freq_scheduler_cursor_open`   — lines 99-133 (error-path model)
  * `freq_scheduler_cursor_commit` — lines 135-147 (error-path model)
-/

/-- Key of a schedule entry: virtual next-due score and 64-bit page hash
(`ScheduleKey` in `scheduler.h`; scores modelled as rationals, hashes as
naturals). -/
structure ScheduleKey where
  score : ℚ
  hash : ℕ
  deriving DecidableEq, Repr

/-- Modelled from the spec: `PageInfo` is the page-DB collaborator record
(`page_db.h`, not under `src/`), exposing `url`, `last_crawl` (seconds since
epoch), `n_crawls`, the seed flag (`page_info_is_seed`) and the rate estimate
(`page_info_rate`). -/
structure PageInfo where
  url : String
  last_crawl : ℚ
  n_crawls : ℕ
  is_seed : Bool
  rate : ℚ
  deriving DecidableEq, Repr

/-- Modelled from the spec: `PageFreq` element of the `load_from_array` input
(`freq_scheduler.h`, not under `src/`): a page hash and its target frequency. -/
structure PageFreq where
  hash : ℕ
  freq : ℚ
  deriving DecidableEq, Repr

/-- Scheduler configuration fields consulted by the algorithms: `margin`
(throttle slack, negative means disabled) and `max_n_crawls` (crawl cap,
0 means unlimited). -/
structure FreqScheduler where
  margin : ℚ
  max_n_crawls : ℕ
  deriving DecidableEq, Repr

/-- The schedule table: association list from keys to stored frequencies,
maintained in ascending key order. -/
abbrev Schedule := List (ScheduleKey × ℚ)

/-- Modelled from the spec: the key comparator `schedule_entry_mdb_cmp_asc`
(`scheduler.c`, not under `src/`) orders keys lexicographically by
(score ascending, hash ascending). -/
def schedule_key_lt (a b : ScheduleKey) : Prop :=
  a.score < b.score ∨ (a.score = b.score ∧ a.hash < b.hash)

instance (a b : ScheduleKey) : Decidable (schedule_key_lt a b) := by
  unfold schedule_key_lt; infer_instance

/-- Modelled from the spec: `mdb_cursor_put` with default flags on the
schedule table (LMDB, an external collaborator): insert the pair in comparator
order, replacing the value when the key is already present. -/
def schedule_put : Schedule → ScheduleKey → ℚ → Schedule
  | [], k, v => [(k, v)]
  | (k', v') :: rest, k, v =>
    if schedule_key_lt k k' then (k, v) :: (k', v') :: rest
    else if k = k' then (k, v) :: rest
    else (k', v') :: schedule_put rest k v

/-- The hashes stored in a schedule, in table order. -/
def hashesOf (s : Schedule) : List ℕ := s.map fun e => e.1.hash

/-- Spec invariant 2: each hash occurs in at most one schedule entry. -/
def uniqueHashes (s : Schedule) : Prop := (hashesOf s).Nodup

instance (s : Schedule) : Decidable (uniqueHashes s) := by
  unfold uniqueHashes; infer_instance

/-- The (score, freq) stored for a hash: the first entry carrying it. -/
def lookupH : Schedule → ℕ → Option (ℚ × ℚ)
  | [], _ => none
  | (k, v) :: rest, h => if k.hash = h then some (k.score, v) else lookupH rest h

/-- Spec invariant 1: every stored entry has positive frequency and
non-negative score. -/
def schedule_ok (s : Schedule) : Prop := ∀ e ∈ s, 0 < e.2 ∧ 0 ≤ e.1.score

instance (s : Schedule) : Decidable (schedule_ok s) := by
  unfold schedule_ok; infer_instance

/-- `freq_scheduler_cursor_write` (lines 156-185): refuse non-positive
frequencies, otherwise insert `(score = 0, hash) -> freq`. -/
def freq_scheduler_cursor_write (sched : Schedule) (hash : ℕ) (freq : ℚ) :
    Schedule :=
  if freq ≤ 0 then sched else schedule_put sched ⟨0, hash⟩ freq

/-- One iteration of the `freq_scheduler_load_simple` stream loop
(lines 209-225): eligibility filter, frequency computation, write. -/
def freq_scheduler_load_simple_step (cfg : FreqScheduler)
    (freq_default freq_scale : ℚ) (sched : Schedule) (hp : ℕ × PageInfo) :
    Schedule :=
  if 0 < hp.2.n_crawls ∧
      (cfg.max_n_crawls = 0 ∨ hp.2.n_crawls < cfg.max_n_crawls) ∧
      hp.2.is_seed = false then
    freq_scheduler_cursor_write sched hp.1
      (if 0 < freq_scale then
        (if 0 < hp.2.rate then freq_scale * hp.2.rate else freq_default)
      else freq_default)
  else sched

/-- `freq_scheduler_load_simple` (lines 187-247): fold the stream loop over
the page-DB hash/info stream. -/
def freq_scheduler_load_simple (cfg : FreqScheduler)
    (freq_default freq_scale : ℚ) (stream : List (ℕ × PageInfo))
    (sched : Schedule) : Schedule :=
  stream.foldl (freq_scheduler_load_simple_step cfg freq_default freq_scale) sched

/-- `freq_scheduler_load_mmap` (lines 249-300): insert each array element with
key `(1/freq, hash)` and value `freq`, with no validation of `freq`. -/
def freq_scheduler_load_mmap (freqs : List PageFreq) (sched : Schedule) :
    Schedule :=
  freqs.foldl (fun s f => schedule_put s ⟨1 / f.freq, f.hash⟩ f.freq) sched

/-- The throttle test of `freq_scheduler_request` (lines 344-348):
with `margin >= 0`, the head is not yet due when
`now - last_crawl < 1 / (freq * (1 + margin))`. -/
def throttles (cfg : FreqScheduler) (now : ℚ) (pi : PageInfo) (freq : ℚ) :
    Prop :=
  0 ≤ cfg.margin ∧ now - pi.last_crawl < 1 / (freq * (1 + cfg.margin))

instance (cfg : FreqScheduler) (now : ℚ) (pi : PageInfo) (freq : ℚ) :
    Decidable (throttles cfg now pi freq) := by
  unfold throttles; infer_instance

/-- The crawl decision of `freq_scheduler_request` (lines 328, 343-350):
`crawl = (max_n_crawls == 0) || (n_crawls < max_n_crawls)` when the page
exists, and `crawl = 0` when it does not. -/
def crawl_decision (cfg : FreqScheduler) : Option PageInfo → Prop
  | none => False
  | some pi => cfg.max_n_crawls = 0 ∨ pi.n_crawls < cfg.max_n_crawls

instance (cfg : FreqScheduler) (o : Option PageInfo) :
    Decidable (crawl_decision cfg o) := by
  cases o <;> (unfold crawl_decision; infer_instance)

/-- The while loop of `freq_scheduler_request` (lines 320-386). Each
iteration: stop when the request list is full; read the head (stop when the
table is empty); look the page up; with the throttle triggered stop without
touching the head; otherwise delete the head and, when `crawl` holds, emit the
URL and reinsert the entry at `(score + 1/freq, hash)` with the same stored
frequency. The `fuel` argument only bounds the recursion; the wrapper passes
more fuel than the loop can consume, since every iteration either stops,
emits a URL, or shrinks the table. -/
def freq_scheduler_request_loop (cfg : FreqScheduler) (now : ℚ)
    (db : ℕ → Option PageInfo) (max_requests : ℕ) :
    ℕ → Schedule → List String → Schedule × List String
  | 0, sched, urls => (sched, urls)
  | fuel + 1, sched, urls =>
    if urls.length < max_requests then
      match sched with
      | [] => (sched, urls)
      | (sk, freq) :: rest =>
        match db sk.hash with
        | some pi =>
          if throttles cfg now pi freq then ((sk, freq) :: rest, urls)
          else if crawl_decision cfg (some pi) then
            freq_scheduler_request_loop cfg now db max_requests fuel
              (schedule_put rest ⟨sk.score + 1 / freq, sk.hash⟩ freq)
              (urls ++ [pi.url])
          else
            freq_scheduler_request_loop cfg now db max_requests fuel rest urls
        | none =>
          freq_scheduler_request_loop cfg now db max_requests fuel rest urls
    else (sched, urls)

/-- `freq_scheduler_request` (lines 302-399): run the loop on an empty request
list; the returned pair is the committed schedule and the emitted URLs. -/
def freq_scheduler_request (cfg : FreqScheduler) (now : ℚ)
    (db : ℕ → Option PageInfo) (max_requests : ℕ) (sched : Schedule) :
    Schedule × List String :=
  freq_scheduler_request_loop cfg now db max_requests
    (max_requests + sched.length + 1) sched []

/-! ## Error-record model

`freq_scheduler.c` threads a last-error record through every operation and
returns `sch->error->code` on both success and failure paths. Store failures
(transaction begin, mdb calls, commit) are injected as explicit return-code
arguments. -/

/-- Modelled from the spec: the scheduler's last-error record (`util.c`, not
under `src/`): a code plus a chained diagnostic message. -/
structure ErrorRec where
  code : ℕ
  message : List String
  deriving DecidableEq, Repr

/-- Modelled from the spec: `error_set` (`util.c`, not under `src/`) replaces
the code and starts a fresh message chain. -/
def error_set (_e : ErrorRec) (code : ℕ) (msg : String) : ErrorRec :=
  ⟨code, [msg]⟩

/-- Modelled from the spec: `error_add` (`util.c`, not under `src/`) appends
to the message chain, leaving the code alone. -/
def error_add (e : ErrorRec) (msg : String) : ErrorRec :=
  ⟨e.code, e.message ++ [msg]⟩

/-- Modelled from the spec: the success code of the `FreqSchedulerError` enum
(`freq_scheduler.h`, not under `src/`). -/
def freq_scheduler_error_ok : ℕ := 0

/-- Modelled from the spec: the `Internal` error code of the
`FreqSchedulerError` enum (`freq_scheduler.h`, not under `src/`). -/
def freq_scheduler_error_internal : ℕ := 3

/-- `freq_scheduler_cursor_open` (lines 99-133), error flow. Arguments inject
the collaborator outcomes: `txn_rc` is the `txn_manager_begin` return code and
`mdb_rc` the combined result of `mdb_dbi_open || mdb_set_compare ||
mdb_cursor_open`. Returns the updated error record, the written `*cursor`
(`none` models the NULL cursor), and the returned status code. When the mdb
chain fails after the transaction began, the code stores local message strings
that are never used: it falls through to `return sch->error->code` without
calling `error_set`. -/
def freq_scheduler_cursor_open (err : ErrorRec) (txn_rc : ℕ)
    (txn_msg : String) (mdb_rc : ℕ) : ErrorRec × Option Unit × ℕ :=
  if txn_rc ≠ 0 then
    let e := error_add (error_add
      (error_set err freq_scheduler_error_internal "freq_scheduler_cursor_open")
      "starting transaction") txn_msg
    (e, none, e.code)
  else if mdb_rc ≠ 0 then (err, none, err.code)
  else (err, some (), err.code)

/-- `freq_scheduler_cursor_commit` (lines 135-147), error flow: on a commit
failure record an internal error, then return `sch->error->code` — which is
also returned unchanged when the commit succeeds. -/
def freq_scheduler_cursor_commit (err : ErrorRec) (commit_rc : ℕ)
    (tm_msg : String) : ErrorRec × ℕ :=
  if commit_rc ≠ 0 then
    let e := error_add (error_add
      (error_set err freq_scheduler_error_internal "freq_scheduler_cursor_commit")
      "commiting schedule transaction") tm_msg
    (e, e.code)
  else (err, err.code)

/-- Status flow of `freq_scheduler_request` (lines 386-399) when every loop
body operation succeeds: the function calls `freq_scheduler_cursor_commit`
and, when the code that call returns is non-zero, takes the `on_error` path —
`freq_scheduler_set_error(sch, freq_scheduler_error_internal, __func__)` with
both extra messages NULL — before returning `sch->error->code`. -/
def freq_scheduler_request_status (err : ErrorRec) (commit_rc : ℕ)
    (tm_msg : String) : ErrorRec × ℕ :=
  let ec := freq_scheduler_cursor_commit err commit_rc tm_msg
  if ec.2 ≠ 0 then
    let e := error_set ec.1 freq_scheduler_error_internal "freq_scheduler_request"
    (e, e.code)
  else ec

/-! ## Helper lemmas about the schedule table -/

theorem hashesOf_cons (e : ScheduleKey × ℚ) (s : Schedule) :
    hashesOf (e :: s) = e.1.hash :: hashesOf s := rfl

theorem schedule_put_length (s : Schedule) (k : ScheduleKey) (v : ℚ) :
    (schedule_put s k v).length ≤ s.length + 1 := by
  induction s with
  | nil => simp [schedule_put]
  | cons hd rest ih =>
    obtain ⟨k', v'⟩ := hd
    simp only [schedule_put]
    split
    · simp
    · split
      · simp
      · simpa using Nat.succ_le_succ ih

theorem mem_schedule_put (s : Schedule) (k : ScheduleKey) (v : ℚ)
    (e : ScheduleKey × ℚ) (he : e ∈ schedule_put s k v) :
    e = (k, v) ∨ e ∈ s := by
  induction s with
  | nil => simpa [schedule_put] using he
  | cons hd rest ih =>
    obtain ⟨k', v'⟩ := hd
    simp only [schedule_put] at he
    split at he
    · rcases List.mem_cons.1 he with h | h
      · exact Or.inl h
      · exact Or.inr h
    · split at he
      · rcases List.mem_cons.1 he with h | h
        · exact Or.inl h
        · exact Or.inr (List.mem_cons_of_mem _ h)
      · rcases List.mem_cons.1 he with h | h
        · exact Or.inr (h ▸ List.mem_cons_self _ _)
        · rcases ih h with h' | h'
          · exact Or.inl h'
          · exact Or.inr (List.mem_cons_of_mem _ h')

theorem mem_hashesOf_put (s : Schedule) (k : ScheduleKey) (v : ℚ) (x : ℕ)
    (hx : x ∈ hashesOf (schedule_put s k v)) :
    x = k.hash ∨ x ∈ hashesOf s := by
  rcases List.mem_map.1 hx with ⟨e, he, hex⟩
  rcases mem_schedule_put s k v e he with h | h
  · left; rw [← hex, h]
  · right; exact List.mem_map.2 ⟨e, h, hex⟩

theorem uniqueHashes_cons (e : ScheduleKey × ℚ) (s : Schedule) :
    uniqueHashes (e :: s) ↔ e.1.hash ∉ hashesOf s ∧ uniqueHashes s := by
  simp [uniqueHashes, hashesOf]

theorem uniqueHashes_put (s : Schedule) (k : ScheduleKey) (v : ℚ)
    (hs : uniqueHashes s) (hk : k.hash ∉ hashesOf s) :
    uniqueHashes (schedule_put s k v) := by
  induction s with
  | nil => simp [schedule_put, uniqueHashes, hashesOf]
  | cons hd rest ih =>
    obtain ⟨k', v'⟩ := hd
    rw [uniqueHashes_cons] at hs
    rw [hashesOf_cons, List.mem_cons] at hk
    push_neg at hk
    simp only [schedule_put]
    split
    · rw [uniqueHashes_cons, hashesOf_cons]
      refine ⟨?_, (uniqueHashes_cons _ _).2 hs⟩
      rw [List.mem_cons]
      push_neg
      exact hk
    · split
      · rw [uniqueHashes_cons]
        exact ⟨hk.2, hs.2⟩
      · rw [uniqueHashes_cons]
        refine ⟨?_, ih hs.2 hk.2⟩
        intro hmem
        rcases mem_hashesOf_put rest k v k'.hash hmem with h | h
        · exact hk.1 h.symm
        · exact hs.1 h

theorem schedule_ok_put (s : Schedule) (k : ScheduleKey) (v : ℚ)
    (hs : schedule_ok s) (hv : 0 < v) (hk : 0 ≤ k.score) :
    schedule_ok (schedule_put s k v) := by
  intro e he
  rcases mem_schedule_put s k v e he with h | h
  · rw [h]; exact ⟨hv, hk⟩
  · exact hs e h

theorem lookupH_put_self (s : Schedule) (k : ScheduleKey) (v : ℚ)
    (hk : k.hash ∉ hashesOf s) :
    lookupH (schedule_put s k v) k.hash = some (k.score, v) := by
  induction s with
  | nil => simp [schedule_put, lookupH]
  | cons hd rest ih =>
    obtain ⟨k', v'⟩ := hd
    rw [hashesOf_cons, List.mem_cons] at hk
    push_neg at hk
    simp only [schedule_put]
    split
    · simp [lookupH]
    · split
      · simp [lookupH]
      · rw [lookupH]
        rw [if_neg (fun h => hk.1 h.symm)]
        exact ih hk.2

theorem lookupH_put_other (s : Schedule) (k : ScheduleKey) (v : ℚ) (h : ℕ)
    (hk : k.hash ≠ h) :
    lookupH (schedule_put s k v) h = lookupH s h := by
  induction s with
  | nil => simp [schedule_put, lookupH, hk]
  | cons hd rest ih =>
    obtain ⟨k', v'⟩ := hd
    simp only [schedule_put]
    split
    · rw [lookupH, if_neg hk, lookupH]
    · rename_i hlt
      split
      · rename_i heq
        rw [lookupH, if_neg hk, lookupH, ← heq, if_neg hk]
      · rw [lookupH, lookupH]
        split
        · rfl
        · exact ih

/-! ## Helper lemmas about the request loop -/

theorem request_loop_urls_length (cfg : FreqScheduler) (now : ℚ)
    (db : ℕ → Option PageInfo) (m : ℕ) :
    ∀ (fuel : ℕ) (sched : Schedule) (urls : List String),
    urls.length ≤ m →
    ((freq_scheduler_request_loop cfg now db m fuel sched urls).2).length ≤ m := by
  intro fuel
  induction fuel with
  | zero => intro sched urls h; simpa [freq_scheduler_request_loop] using h
  | succ n ih =>
    intro sched urls h
    simp only [freq_scheduler_request_loop]
    split
    · match sched with
      | [] => simpa using h
      | (sk, freq) :: rest =>
        rcases hdb : db sk.hash with _ | pi
        · simp only [hdb]
          exact ih rest urls h
        · simp only [hdb]
          split
          · simpa using h
          · split
            · rename_i hlen _ _
              refine ih _ _ ?_
              simpa using hlen
            · exact ih rest urls h
    · simpa using h

theorem request_loop_uniqueHashes (cfg : FreqScheduler) (now : ℚ)
    (db : ℕ → Option PageInfo) (m : ℕ) :
    ∀ (fuel : ℕ) (sched : Schedule) (urls : List String),
    uniqueHashes sched →
    uniqueHashes (freq_scheduler_request_loop cfg now db m fuel sched urls).1 := by
  intro fuel
  induction fuel with
  | zero => intro sched urls h; simpa [freq_scheduler_request_loop] using h
  | succ n ih =>
    intro sched urls h
    rcases sched with _ | ⟨⟨sk, freq⟩, rest⟩
    · simpa [freq_scheduler_request_loop] using h
    · have h' := (uniqueHashes_cons (sk, freq) rest).1 h
      simp only [freq_scheduler_request_loop]
      split
      · rcases hdb : db sk.hash with _ | pi
        · simp only [hdb]
          exact ih rest urls h'.2
        · simp only [hdb]
          split
          · exact h
          · split
            · exact ih _ _ (uniqueHashes_put rest _ freq h'.2 h'.1)
            · exact ih rest urls h'.2
      · exact h

theorem request_loop_schedule_ok (cfg : FreqScheduler) (now : ℚ)
    (db : ℕ → Option PageInfo) (m : ℕ) :
    ∀ (fuel : ℕ) (sched : Schedule) (urls : List String),
    schedule_ok sched →
    schedule_ok (freq_scheduler_request_loop cfg now db m fuel sched urls).1 := by
  intro fuel
  induction fuel with
  | zero => intro sched urls h; simpa [freq_scheduler_request_loop] using h
  | succ n ih =>
    intro sched urls h
    rcases sched with _ | ⟨⟨sk, freq⟩, rest⟩
    · simpa [freq_scheduler_request_loop] using h
    · have hhead := h (sk, freq) (List.mem_cons_self _ _)
      have hrest : schedule_ok rest := fun e he => h e (List.mem_cons_of_mem _ he)
      simp only [freq_scheduler_request_loop]
      split
      · rcases hdb : db sk.hash with _ | pi
        · simp only [hdb]
          exact ih rest urls hrest
        · simp only [hdb]
          split
          · exact h
          · split
            · refine ih _ _ (schedule_ok_put rest _ freq hrest hhead.1 ?_)
              exact add_nonneg hhead.2 (le_of_lt (one_div_pos.2 hhead.1))
            · exact ih rest urls hrest
      · exact h

theorem request_loop_hash_absent (cfg : FreqScheduler) (now : ℚ)
    (db : ℕ → Option PageInfo) (m : ℕ) (h : ℕ)
    (hcd : ¬ crawl_decision cfg (db h)) :
    ∀ (fuel : ℕ) (sched : Schedule) (urls : List String),
    h ∉ hashesOf sched →
    h ∉ hashesOf (freq_scheduler_request_loop cfg now db m fuel sched urls).1 := by
  intro fuel
  induction fuel with
  | zero => intro sched urls hab; simpa [freq_scheduler_request_loop] using hab
  | succ n ih =>
    intro sched urls hab
    rcases sched with _ | ⟨⟨sk, freq⟩, rest⟩
    · simpa [freq_scheduler_request_loop] using hab
    · rw [hashesOf_cons, List.mem_cons] at hab
      push_neg at hab
      simp only [freq_scheduler_request_loop]
      split
      · rcases hdb : db sk.hash with _ | pi
        · simp only [hdb]
          exact ih rest urls hab.2
        · simp only [hdb]
          split
          · show h ∉ hashesOf ((sk, freq) :: rest)
            rw [hashesOf_cons, List.mem_cons]
            push_neg
            exact hab
          · split
            · rename_i hcr
              have hne : sk.hash ≠ h := by
                intro hEq
                rw [← hEq, hdb] at hcd
                exact hcd hcr
              refine ih _ _ ?_
              intro hmem
              rcases mem_hashesOf_put rest _ freq h hmem with h' | h'
              · exact hne h'.symm
              · exact hab.2 h'
            · exact ih rest urls hab.2
      · show h ∉ hashesOf ((sk, freq) :: rest)
        rw [hashesOf_cons, List.mem_cons]
        push_neg
        exact hab

theorem request_loop_lookupH (cfg : FreqScheduler) (now : ℚ)
    (db : ℕ → Option PageInfo) (m : ℕ) (h : ℕ)
    (hcd : crawl_decision cfg (db h)) :
    ∀ (fuel : ℕ) (sched : Schedule) (urls : List String) (σ f : ℚ),
    uniqueHashes sched → lookupH sched h = some (σ, f) →
    ∃ k : ℕ,
      lookupH (freq_scheduler_request_loop cfg now db m fuel sched urls).1 h =
        some (σ + k / f, f) := by
  intro fuel
  induction fuel with
  | zero =>
    intro sched urls σ f _ hl
    exact ⟨0, by simpa [freq_scheduler_request_loop] using hl⟩
  | succ n ih =>
    intro sched urls σ f hu hl
    rcases sched with _ | ⟨⟨sk, freq⟩, rest⟩
    · simp [lookupH] at hl
    · have hu' := (uniqueHashes_cons (sk, freq) rest).1 hu
      rw [lookupH] at hl
      simp only [freq_scheduler_request_loop]
      by_cases hfull : urls.length < m
      · rw [if_pos hfull]
        by_cases hsh : sk.hash = h
        · rw [if_pos hsh] at hl
          obtain ⟨hσ, hf⟩ : sk.score = σ ∧ freq = f := by simpa using hl
          subst hσ
          subst hf
          rcases hdb : db h with _ | pi
          · rw [hdb] at hcd
            exact absurd hcd (by simp [crawl_decision])
          · have hdb' : db sk.hash = some pi := by rw [hsh]; exact hdb
            simp only [hdb']
            split
            · refine ⟨0, ?_⟩
              show lookupH ((sk, freq) :: rest) h = _
              rw [lookupH, if_pos hsh]
              norm_num
            · split
              · have hnotin :
                    (⟨sk.score + 1 / freq, sk.hash⟩ : ScheduleKey).hash ∉
                      hashesOf rest := hu'.1
                have hput :
                    lookupH (schedule_put rest ⟨sk.score + 1 / freq, sk.hash⟩ freq) h =
                      some (sk.score + 1 / freq, freq) := by
                  rw [← hsh]
                  exact lookupH_put_self rest _ freq hnotin
                have huput :
                    uniqueHashes
                      (schedule_put rest ⟨sk.score + 1 / freq, sk.hash⟩ freq) :=
                  uniqueHashes_put rest _ freq hu'.2 hu'.1
                rcases ih _ (urls ++ [pi.url]) (sk.score + 1 / freq) freq huput hput
                  with ⟨k, hk⟩
                refine ⟨k + 1, ?_⟩
                rw [hk]
                congr 2
                push_cast
                ring
              · rename_i hcr
                rw [hdb] at hcd
                exact absurd hcd hcr
        · rw [if_neg hsh] at hl
          rcases hdb : db sk.hash with _ | pi
          · simp only [hdb]
            exact ih rest urls σ f hu'.2 hl
          · simp only [hdb]
            split
            · refine ⟨0, ?_⟩
              show lookupH ((sk, freq) :: rest) h = _
              rw [lookupH, if_neg hsh, hl]
              norm_num
            · split
              · have hne :
                    (⟨sk.score + 1 / freq, sk.hash⟩ : ScheduleKey).hash ≠ h := hsh
                refine ih _ _ σ f
                  (uniqueHashes_put rest _ freq hu'.2 hu'.1) ?_
                rw [lookupH_put_other rest _ freq h hne]
                exact hl
              · exact ih rest urls σ f hu'.2 hl
      · rw [if_neg hfull]
        refine ⟨0, ?_⟩
        show lookupH ((sk, freq) :: rest) h = _
        rw [lookupH, hl]
        norm_num

/-! ## Helper lemmas about the loaders -/

theorem cursor_write_schedule_ok (s : Schedule) (h : ℕ) (f : ℚ)
    (hs : schedule_ok s) :
    schedule_ok (freq_scheduler_cursor_write s h f) := by
  unfold freq_scheduler_cursor_write
  split
  · exact hs
  · rename_i hf
    push_neg at hf
    exact schedule_ok_put s _ f hs hf le_rfl

theorem mem_hashesOf_cursor_write (s : Schedule) (h : ℕ) (f : ℚ) (x : ℕ)
    (hx : x ∈ hashesOf (freq_scheduler_cursor_write s h f)) :
    x = h ∨ x ∈ hashesOf s := by
  unfold freq_scheduler_cursor_write at hx
  split at hx
  · exact Or.inr hx
  · exact mem_hashesOf_put s _ f x hx

theorem uniqueHashes_cursor_write (s : Schedule) (h : ℕ) (f : ℚ)
    (hs : uniqueHashes s) (hh : h ∉ hashesOf s) :
    uniqueHashes (freq_scheduler_cursor_write s h f) := by
  unfold freq_scheduler_cursor_write
  split
  · exact hs
  · exact uniqueHashes_put s _ f hs hh

theorem load_simple_schedule_ok (cfg : FreqScheduler) (fd fs : ℚ) :
    ∀ (stream : List (ℕ × PageInfo)) (sched : Schedule),
    schedule_ok sched →
    schedule_ok (freq_scheduler_load_simple cfg fd fs stream sched) := by
  intro stream
  induction stream with
  | nil => intro sched hs; simpa [freq_scheduler_load_simple] using hs
  | cons hp rest ih =>
    intro sched hs
    show schedule_ok (freq_scheduler_load_simple cfg fd fs rest
      (freq_scheduler_load_simple_step cfg fd fs sched hp))
    refine ih _ ?_
    unfold freq_scheduler_load_simple_step
    split
    · exact cursor_write_schedule_ok _ _ _ hs
    · exact hs

theorem load_simple_uniqueHashes (cfg : FreqScheduler) (fd fs : ℚ) :
    ∀ (stream : List (ℕ × PageInfo)) (sched : Schedule),
    uniqueHashes sched →
    (stream.map Prod.fst).Nodup →
    (∀ x ∈ stream.map Prod.fst, x ∉ hashesOf sched) →
    uniqueHashes (freq_scheduler_load_simple cfg fd fs stream sched) := by
  intro stream
  induction stream with
  | nil => intro sched hs _ _; simpa [freq_scheduler_load_simple] using hs
  | cons hp rest ih =>
    intro sched hs hnd hdisj
    rw [List.map_cons, List.nodup_cons] at hnd
    show uniqueHashes (freq_scheduler_load_simple cfg fd fs rest
      (freq_scheduler_load_simple_step cfg fd fs sched hp))
    have hstep_mem : ∀ x ∈ hashesOf (freq_scheduler_load_simple_step cfg fd fs sched hp),
        x = hp.1 ∨ x ∈ hashesOf sched := by
      intro x hx
      unfold freq_scheduler_load_simple_step at hx
      split at hx
      · exact mem_hashesOf_cursor_write sched hp.1 _ x hx
      · exact Or.inr hx
    refine ih _ ?_ hnd.2 ?_
    · unfold freq_scheduler_load_simple_step
      split
      · exact uniqueHashes_cursor_write sched hp.1 _ hs
          (hdisj hp.1 (List.mem_map.2 ⟨hp, List.mem_cons_self _ _, rfl⟩))
      · exact hs
    · intro x hxr hxs
      rcases hstep_mem x hxs with hEq | hmem
      · exact hnd.1 (hEq ▸ hxr)
      · exact hdisj x (List.mem_cons_of_mem _ hxr) hmem

theorem load_mmap_schedule_ok :
    ∀ (l : List PageFreq) (sched : Schedule),
    schedule_ok sched →
    (∀ pf ∈ l, 0 < pf.freq) →
    schedule_ok (freq_scheduler_load_mmap l sched) := by
  intro l
  induction l with
  | nil => intro sched hs _; simpa [freq_scheduler_load_mmap] using hs
  | cons pf rest ih =>
    intro sched hs hpos
    show schedule_ok (freq_scheduler_load_mmap rest
      (schedule_put sched ⟨1 / pf.freq, pf.hash⟩ pf.freq))
    refine ih _ ?_ fun q hq => hpos q (List.mem_cons_of_mem _ hq)
    have hf : 0 < pf.freq := hpos pf (List.mem_cons_self _ _)
    exact schedule_ok_put sched _ pf.freq hs hf (le_of_lt (one_div_pos.2 hf))

theorem load_mmap_uniqueHashes :
    ∀ (l : List PageFreq) (sched : Schedule),
    uniqueHashes sched →
    (l.map PageFreq.hash).Nodup →
    (∀ x ∈ l.map PageFreq.hash, x ∉ hashesOf sched) →
    uniqueHashes (freq_scheduler_load_mmap l sched) := by
  intro l
  induction l with
  | nil => intro sched hs _ _; simpa [freq_scheduler_load_mmap] using hs
  | cons pf rest ih =>
    intro sched hs hnd hdisj
    rw [List.map_cons, List.nodup_cons] at hnd
    show uniqueHashes (freq_scheduler_load_mmap rest
      (schedule_put sched ⟨1 / pf.freq, pf.hash⟩ pf.freq))
    refine ih _ ?_ hnd.2 ?_
    · exact uniqueHashes_put sched _ pf.freq hs
        (hdisj pf.hash (List.mem_map.2 ⟨pf, List.mem_cons_self _ _, rfl⟩))
    · intro x hxr hxs
      rcases mem_hashesOf_put sched _ pf.freq x hxs with hEq | hmem
      · have hEq' : x = pf.hash := hEq
        exact hnd.1 (hEq' ▸ hxr)
      · exact hdisj x (List.mem_cons_of_mem _ hxr) hmem

/-! ## Concrete fixtures for the literal scenarios -/

/-- Scheduler with throttling disabled (margin -1) and no crawl cap. -/
def cfg_two_pages : FreqScheduler := ⟨-1, 0⟩

/-- Page behind hash 1 in the two-page scenario. -/
def page_u1 : PageInfo := ⟨"u1", 0, 1, false, 0⟩

/-- Page behind hash 2 in the two-page scenario. -/
def page_u2 : PageInfo := ⟨"u2", 0, 1, false, 0⟩

/-- Page DB of the two-page scenario: hash 1 is `page_u1`, hash 2 is
`page_u2`. -/
def db_two_pages : ℕ → Option PageInfo := fun h =>
  if h = 1 then some page_u1 else if h = 2 then some page_u2 else none

/-- Schedule holding exactly `(hash 1, freq 2)` and `(hash 2, freq 1)`, both
at score 0. -/
def sched_two_pages : Schedule := [(⟨0, 1⟩, 2), (⟨0, 2⟩, 1)]

/-- Scheduler with `margin = 0` and no crawl cap. -/
def cfg_margin_zero : FreqScheduler := ⟨0, 0⟩

/-- Page DB holding one page of hash 7 with `last_crawl = 0`. -/
def db_page7 : ℕ → Option PageInfo := fun h =>
  if h = 7 then some ⟨"u7", 0, 1, false, 0⟩ else none

/-! ## Claims -/

/-- Claim C1, counterexample. On the two-page schedule the six-URL request
does NOT emit `[u1, u1, u2, u1, u1, u2]`: after the first emission hash 1 is
reinserted at score 1/2, so the head — the least `(score, hash)` key — is now
`(0, 2)` and the second emission is `u2`. -/
theorem request_two_pages_claimed_order_false :
    (freq_scheduler_request cfg_two_pages 100 db_two_pages 6 sched_two_pages).2 ≠
      ["u1", "u1", "u2", "u1", "u1", "u2"] := by
  have hrun :
      (freq_scheduler_request cfg_two_pages 100 db_two_pages 6 sched_two_pages).2 =
        ["u1", "u2", "u1", "u1", "u2", "u1"] := by
    norm_num [freq_scheduler_request, freq_scheduler_request_loop, schedule_put,
      schedule_key_lt, throttles, crawl_decision, cfg_two_pages, page_u1, page_u2,
      db_two_pages, sched_two_pages]
  rw [hrun]
  decide

/-- Claim C1, amended. The two-page request emits the six URLs in the order
`[u1, u2, u1, u1, u2, u1]` — ties broken by hash, each emission reinserting
at `score + 1/freq` — and the final stored scores are 2 for hash 1 and 2 for
hash 2, as the claim stated. -/
theorem request_two_pages_order_and_final_scores :
    freq_scheduler_request cfg_two_pages 100 db_two_pages 6 sched_two_pages =
      ([(⟨2, 1⟩, 2), (⟨2, 2⟩, 1)], ["u1", "u2", "u1", "u1", "u2", "u1"]) := by
  norm_num [freq_scheduler_request, freq_scheduler_request_loop, schedule_put,
    schedule_key_lt, throttles, crawl_decision, cfg_two_pages, page_u1, page_u2,
    db_two_pages, sched_two_pages]

/-- Claim C2, counterexample. One call can emit the same hash several times,
each emission advancing the score by `1/freq`: starting from score 0 with
freq 2, a two-URL request emits `u1` twice and commits score 1 — not the
claimed `previous score + 1/freq = 1/2`. -/
theorem request_score_advance_per_call_false :
    freq_scheduler_request cfg_two_pages 100 db_two_pages 2 [(⟨0, 1⟩, 2)] =
      ([(⟨1, 1⟩, 2)], ["u1", "u1"]) ∧ (1 : ℚ) ≠ 0 + 1 / 2 := by
  constructor
  · norm_num [freq_scheduler_request, freq_scheduler_request_loop, schedule_put,
      schedule_key_lt, throttles, crawl_decision, cfg_two_pages, page_u1, page_u2,
      db_two_pages]
  · norm_num

/-- Claim C2, amended. For every hash `h` whose page is eligible to crawl,
a committed `freq_scheduler_request` leaves the entry of `h` at
`(previous score + k/freq, freq)` for some number `k` of emissions — the
score advances by exactly `1/freq` per emission and the stored frequency is
unchanged. -/
theorem request_score_advance_per_emission
    (cfg : FreqScheduler) (now : ℚ) (db : ℕ → Option PageInfo) (m : ℕ)
    (h : ℕ) (σ f : ℚ) (sched : Schedule)
    (hcd : crawl_decision cfg (db h))
    (hu : uniqueHashes sched)
    (hl : lookupH sched h = some (σ, f)) :
    ∃ k : ℕ,
      lookupH (freq_scheduler_request cfg now db m sched).1 h =
        some (σ + k / f, f) :=
  request_loop_lookupH cfg now db m h hcd _ sched [] σ f hu hl

/-- Claim C2, witness: the amended statement applied at the one-page
schedule. -/
theorem request_score_advance_per_emission_witness :
    ∃ k : ℕ,
      lookupH (freq_scheduler_request cfg_two_pages 100 db_two_pages 2
        [(⟨0, 1⟩, 2)]).1 1 = some (0 + (k : ℚ) / 2, 2) :=
  request_score_advance_per_emission cfg_two_pages 100 db_two_pages 2 1 0 2
    [(⟨0, 1⟩, 2)]
    (by simp [crawl_decision, db_two_pages, cfg_two_pages, page_u1])
    (by decide)
    (by simp [lookupH])

/-- Claim C3, counterexample to its consequent. With `margin = 0` and a page
of hash 7 whose `last_crawl` stays 0 for the whole call, a two-URL request
emits hash 7 twice in direct succession even though `last_crawl(7)` differs
by `0 < 1/(freq (1 + margin))` between the two emissions: the throttle only
guards the first pop of a call, because `last_crawl` is not updated by
`request` itself. -/
theorem request_same_hash_twice_within_call :
    (freq_scheduler_request cfg_margin_zero 100 db_page7 2 [(⟨0, 7⟩, 1)]).2 =
      ["u7", "u7"] ∧ (0 : ℚ) < 1 / (1 * (1 + 0)) := by
  constructor
  · norm_num [freq_scheduler_request, freq_scheduler_request_loop, schedule_put,
      schedule_key_lt, throttles, crawl_decision, cfg_margin_zero, db_page7]
  · norm_num

/-- Claim C3, amended to its first part. With `margin ≥ 0`, a head entry
whose page exists and whose elapsed time since `last_crawl` is below
`1/(freq (1 + margin))` interrupts the whole batch: the call returns the
schedule unchanged — the head is neither deleted nor rescored — and emits no
URL at all. -/
theorem request_throttled_head_stops_batch
    (cfg : FreqScheduler) (now : ℚ) (db : ℕ → Option PageInfo) (m : ℕ)
    (sk : ScheduleKey) (f : ℚ) (rest : Schedule) (pi : PageInfo)
    (hdb : db sk.hash = some pi)
    (hm : 0 ≤ cfg.margin)
    (hlt : now - pi.last_crawl < 1 / (f * (1 + cfg.margin))) :
    freq_scheduler_request cfg now db m ((sk, f) :: rest) =
      ((sk, f) :: rest, []) := by
  unfold freq_scheduler_request
  simp only [freq_scheduler_request_loop, hdb]
  split
  · rw [if_pos (show throttles cfg now pi f from ⟨hm, hlt⟩)]
  · rfl

/-- Claim C3, witness: a throttled head at concrete values (freq 1, margin 0,
elapsed 1/2 < 1). -/
theorem request_throttled_head_stops_batch_witness :
    freq_scheduler_request ⟨0, 0⟩ 100
      (fun h => if h = 7 then some ⟨"u7", 199 / 2, 1, false, 0⟩ else none) 10
      [(⟨0, 7⟩, 1)] = ([(⟨0, 7⟩, 1)], []) :=
  request_throttled_head_stops_batch ⟨0, 0⟩ 100 _ 10 ⟨0, 7⟩ 1 [] _ rfl
    (by norm_num) (by norm_num)

/-- Claim C4. For a popped head entry that is not throttled: when the crawl
decision holds, the loop emits the page URL and reinserts the entry at
`(score + 1/freq, hash)` with unchanged frequency; when it does not hold —
the page is over its crawl cap, or missing from the page DB — the head is
deleted, no URL is appended at that step, and (each hash occurring at most
once, spec invariant 2) the hash is absent from the committed schedule. -/
theorem request_crawl_decision_head
    (cfg : FreqScheduler) (now : ℚ) (db : ℕ → Option PageInfo) (m fuel : ℕ)
    (sk : ScheduleKey) (f : ℚ) (rest : Schedule) (urls : List String)
    (hu : uniqueHashes ((sk, f) :: rest))
    (hlen : urls.length < m) :
    (∀ pi, db sk.hash = some pi → ¬ throttles cfg now pi f →
      ((crawl_decision cfg (some pi) →
        freq_scheduler_request_loop cfg now db m (fuel + 1) ((sk, f) :: rest) urls =
          freq_scheduler_request_loop cfg now db m fuel
            (schedule_put rest ⟨sk.score + 1 / f, sk.hash⟩ f) (urls ++ [pi.url]))
       ∧ (¬ crawl_decision cfg (some pi) →
        freq_scheduler_request_loop cfg now db m (fuel + 1) ((sk, f) :: rest) urls =
          freq_scheduler_request_loop cfg now db m fuel rest urls ∧
        sk.hash ∉ hashesOf (freq_scheduler_request_loop cfg now db m (fuel + 1)
          ((sk, f) :: rest) urls).1)))
    ∧ (db sk.hash = none →
        freq_scheduler_request_loop cfg now db m (fuel + 1) ((sk, f) :: rest) urls =
          freq_scheduler_request_loop cfg now db m fuel rest urls ∧
        sk.hash ∉ hashesOf (freq_scheduler_request_loop cfg now db m (fuel + 1)
          ((sk, f) :: rest) urls).1) := by
  have habs : sk.hash ∉ hashesOf rest := ((uniqueHashes_cons (sk, f) rest).1 hu).1
  constructor
  · intro pi hdb hthr
    constructor
    · intro hcr
      simp only [freq_scheduler_request_loop, hdb]
      rw [if_pos hlen, if_neg hthr, if_pos hcr]
    · intro hcr
      have hstep :
          freq_scheduler_request_loop cfg now db m (fuel + 1) ((sk, f) :: rest) urls =
            freq_scheduler_request_loop cfg now db m fuel rest urls := by
        simp only [freq_scheduler_request_loop, hdb]
        rw [if_pos hlen, if_neg hthr, if_neg hcr]
      refine ⟨hstep, ?_⟩
      rw [hstep]
      have hcd : ¬ crawl_decision cfg (db sk.hash) := by
        rw [hdb]; exact hcr
      exact request_loop_hash_absent cfg now db m sk.hash hcd fuel rest urls habs
  · intro hdb
    have hstep :
        freq_scheduler_request_loop cfg now db m (fuel + 1) ((sk, f) :: rest) urls =
          freq_scheduler_request_loop cfg now db m fuel rest urls := by
      simp only [freq_scheduler_request_loop, hdb]
      rw [if_pos hlen]
    refine ⟨hstep, ?_⟩
    rw [hstep]
    have hcd : ¬ crawl_decision cfg (db sk.hash) := by
      rw [hdb]; exact fun hFalse => hFalse
    exact request_loop_hash_absent cfg now db m sk.hash hcd fuel rest urls habs

/-- Claim C4, witness: a page at its crawl cap (`n_crawls = 1`,
`max_n_crawls = 1`) is retired — the head is deleted with no emission and
hash 9 is gone from the committed schedule. -/
theorem request_crawl_decision_head_witness :
    freq_scheduler_request_loop ⟨-1, 1⟩ 100
      (fun h => if h = 9 then some ⟨"u9", 0, 1, false, 0⟩ else none) 5 (3 + 1)
      [(⟨0, 9⟩, 1)] [] =
      freq_scheduler_request_loop ⟨-1, 1⟩ 100
        (fun h => if h = 9 then some ⟨"u9", 0, 1, false, 0⟩ else none) 5 3 [] [] ∧
    9 ∉ hashesOf (freq_scheduler_request_loop ⟨-1, 1⟩ 100
      (fun h => if h = 9 then some ⟨"u9", 0, 1, false, 0⟩ else none) 5 (3 + 1)
      [(⟨0, 9⟩, 1)] []).1 :=
  ((request_crawl_decision_head ⟨-1, 1⟩ 100
      (fun h => if h = 9 then some ⟨"u9", 0, 1, false, 0⟩ else none) 5 3
      ⟨0, 9⟩ 1 [] [] (by decide) (by decide)).1
    ⟨"u9", 0, 1, false, 0⟩ rfl
    (by norm_num [throttles])).2
    (by norm_num [crawl_decision])

/-- Claim C5, counterexample. `freq_scheduler_load_mmap` stores the input
frequency without any validation: loading `(hash 1, freq -1)` commits the
entry `((-1, 1), -1)`, which has negative frequency and negative score,
breaking spec invariant 1. -/
theorem load_mmap_negative_freq_breaks_invariant :
    freq_scheduler_load_mmap [⟨1, -1⟩] [] = [(⟨-1, 1⟩, -1)] ∧
      ¬ schedule_ok [(⟨-1, 1⟩, -1)] := by
  constructor
  · norm_num [freq_scheduler_load_mmap, schedule_put]
  · intro hok
    have := hok (⟨-1, 1⟩, -1) (List.mem_cons_self _ _)
    norm_num at this

/-- Claim C5, amended. Starting from a schedule whose entries all have
`freq > 0` and `score ≥ 0`, the invariant still holds after a committed
`freq_scheduler_load_simple` and after a committed `freq_scheduler_request`;
it holds after `freq_scheduler_load_mmap` provided every input frequency is
positive — the loader itself does not validate. (NaN is outside the rational
model; the sign violation above already falsifies the unconditional claim.) -/
theorem schedule_invariant_preserved
    (cfg : FreqScheduler) (fd fs now : ℚ) (db : ℕ → Option PageInfo)
    (m : ℕ) (stream : List (ℕ × PageInfo)) (l : List PageFreq)
    (sched : Schedule) (hs : schedule_ok sched) :
    schedule_ok (freq_scheduler_load_simple cfg fd fs stream sched)
    ∧ ((∀ pf ∈ l, 0 < pf.freq) → schedule_ok (freq_scheduler_load_mmap l sched))
    ∧ schedule_ok (freq_scheduler_request cfg now db m sched).1 :=
  ⟨load_simple_schedule_ok cfg fd fs stream sched hs,
   fun hpos => load_mmap_schedule_ok l sched hs hpos,
   request_loop_schedule_ok cfg now db m _ sched [] hs⟩

/-- Claim C5, witness: the amended statement applied at concrete inputs. -/
theorem schedule_invariant_preserved_witness :
    schedule_ok (freq_scheduler_load_simple ⟨-1, 0⟩ 1 0 [] [])
    ∧ schedule_ok (freq_scheduler_load_mmap [⟨2, 1⟩] [])
    ∧ schedule_ok (freq_scheduler_request ⟨-1, 0⟩ 100 (fun _ => none) 3 []).1 :=
  ⟨(schedule_invariant_preserved ⟨-1, 0⟩ 1 0 100 (fun _ => none) 3 [] [] []
      (by decide)).1,
   (schedule_invariant_preserved ⟨-1, 0⟩ 1 0 100 (fun _ => none) 3 [] [⟨2, 1⟩] []
      (by decide)).2.1 (by simp),
   (schedule_invariant_preserved ⟨-1, 0⟩ 1 0 100 (fun _ => none) 3 [] [] []
      (by decide)).2.2⟩

/-- Claim C6, counterexample. Reloading after requests have advanced scores
duplicates a hash: load `(hash 1, freq 1)` into the empty schedule, run a
one-URL request (hash 1 moves from score 1 to score 2), then load the same
array again — the schedule now holds the two entries `((1,1), 1)` and
`((2,1), 1)`, so hash 1 occurs twice. -/
theorem reload_after_request_duplicates_hash :
    ¬ uniqueHashes (freq_scheduler_load_mmap [⟨1, 1⟩]
      (freq_scheduler_request cfg_two_pages 100 db_two_pages 1
        (freq_scheduler_load_mmap [⟨1, 1⟩] [])).1) := by
  have hrun : freq_scheduler_load_mmap [⟨1, 1⟩]
      (freq_scheduler_request cfg_two_pages 100 db_two_pages 1
        (freq_scheduler_load_mmap [⟨1, 1⟩] [])).1 =
      [(⟨1, 1⟩, 1), (⟨2, 1⟩, 1)] := by
    norm_num [freq_scheduler_request, freq_scheduler_request_loop,
      freq_scheduler_load_mmap, schedule_put, schedule_key_lt, throttles,
      crawl_decision, cfg_two_pages, page_u1, page_u2, db_two_pages]
  rw [hrun]
  decide

/-- Claim C6, amended. Each hash occurs at most once after any
`freq_scheduler_request` from a state already satisfying the invariant, and
after a single load into the EMPTY schedule whose input hashes are distinct;
a load into a non-empty schedule can duplicate a hash at a different score,
as the counterexample shows. -/
theorem unique_hash_preserved
    (cfg cfg2 : FreqScheduler) (now fd fs : ℚ) (db : ℕ → Option PageInfo)
    (m : ℕ) (sched : Schedule) (stream : List (ℕ × PageInfo))
    (l : List PageFreq) (hu : uniqueHashes sched) :
    uniqueHashes (freq_scheduler_request cfg now db m sched).1
    ∧ ((stream.map Prod.fst).Nodup →
        uniqueHashes (freq_scheduler_load_simple cfg2 fd fs stream []))
    ∧ ((l.map PageFreq.hash).Nodup →
        uniqueHashes (freq_scheduler_load_mmap l [])) :=
  ⟨request_loop_uniqueHashes cfg now db m _ sched [] hu,
   fun hnd => load_simple_uniqueHashes cfg2 fd fs stream []
     (by simp [uniqueHashes, hashesOf]) hnd (by simp [hashesOf]),
   fun hnd => load_mmap_uniqueHashes l []
     (by simp [uniqueHashes, hashesOf]) hnd (by simp [hashesOf])⟩

/-- Claim C6, witness: the amended statement applied at the two-page
fixtures. -/
theorem unique_hash_preserved_witness :
    uniqueHashes (freq_scheduler_request cfg_two_pages 100 db_two_pages 6
      sched_two_pages).1
    ∧ uniqueHashes (freq_scheduler_load_mmap [⟨1, 2⟩, ⟨2, 1⟩] []) :=
  ⟨(unique_hash_preserved cfg_two_pages cfg_two_pages 100 1 0 db_two_pages 6
      sched_two_pages [] [] (by decide)).1,
   (unique_hash_preserved cfg_two_pages cfg_two_pages 100 1 0 db_two_pages 6
      sched_two_pages [] [⟨1, 2⟩, ⟨2, 1⟩] (by decide)).2.2 (by decide)⟩

/-- The frequency the spec prescribes for `load_from_pagedb`:
`freq_scale · rate` when `freq_scale > 0` and `rate > 0`, otherwise
`freq_default` (spec §4.3.1, stated for comparison with the code). -/
def spec_load_freq (freq_default freq_scale rate : ℚ) : ℚ :=
  if 0 < freq_scale ∧ 0 < rate then freq_scale * rate else freq_default

/-- Claim C7. `freq_scheduler_load_simple` processes the stream page by page
and inserts `(score 0, hash) → freq` exactly for the pages that have been
crawled (`n_crawls > 0`), are under the cap (`max_n_crawls = 0` or
`n_crawls < max_n_crawls`), are not seeds, and whose computed frequency —
`freq_scale · rate` when both are positive, else `freq_default` — is
positive; every other page leaves the schedule untouched. -/
theorem load_simple_step_characterization
    (cfg : FreqScheduler) (fd fs : ℚ) (sched : Schedule) (h : ℕ)
    (pi : PageInfo) (stream : List (ℕ × PageInfo)) :
    freq_scheduler_load_simple cfg fd fs [] sched = sched
    ∧ freq_scheduler_load_simple cfg fd fs ((h, pi) :: stream) sched =
        freq_scheduler_load_simple cfg fd fs stream
          (if (0 < pi.n_crawls ∧
                (cfg.max_n_crawls = 0 ∨ pi.n_crawls < cfg.max_n_crawls) ∧
                pi.is_seed = false) ∧ 0 < spec_load_freq fd fs pi.rate then
            schedule_put sched ⟨0, h⟩ (spec_load_freq fd fs pi.rate)
          else sched) := by
  refine ⟨rfl, ?_⟩
  show freq_scheduler_load_simple cfg fd fs stream
      (freq_scheduler_load_simple_step cfg fd fs sched (h, pi)) = _
  congr 1
  have hfreq :
      (if 0 < fs then (if 0 < pi.rate then fs * pi.rate else fd) else fd) =
        spec_load_freq fd fs pi.rate := by
    unfold spec_load_freq
    split_ifs <;> tauto
  unfold freq_scheduler_load_simple_step freq_scheduler_cursor_write
  rw [hfreq]
  by_cases helig : 0 < pi.n_crawls ∧
      (cfg.max_n_crawls = 0 ∨ pi.n_crawls < cfg.max_n_crawls) ∧
      pi.is_seed = false
  · rw [if_pos helig]
    by_cases hf : 0 < spec_load_freq fd fs pi.rate
    · rw [if_neg (not_le.2 hf), if_pos ⟨helig, hf⟩]
    · rw [if_pos (not_lt.1 hf), if_neg (fun hc => hf hc.2)]
  · rw [if_neg helig, if_neg (fun hc => helig hc.1)]

/-- Claim C8. `freq_scheduler_request` returns between 0 and `max_requests`
URLs; on the empty schedule it returns the empty list with the schedule
unchanged, and — when no earlier operation failed and the commit succeeds —
the returned status is the success code. -/
theorem request_length_bound_and_empty
    (cfg : FreqScheduler) (now : ℚ) (db : ℕ → Option PageInfo) (m : ℕ)
    (sched : Schedule) (tm_msg : String) (msgs : List String) :
    ((freq_scheduler_request cfg now db m sched).2).length ≤ m
    ∧ (sched = [] → freq_scheduler_request cfg now db m sched = ([], []))
    ∧ freq_scheduler_request_status ⟨freq_scheduler_error_ok, msgs⟩ 0 tm_msg =
        (⟨freq_scheduler_error_ok, msgs⟩, freq_scheduler_error_ok) := by
  refine ⟨request_loop_urls_length cfg now db m _ sched [] (by simp), ?_, ?_⟩
  · intro hsE
    subst hsE
    unfold freq_scheduler_request
    simp only [freq_scheduler_request_loop]
    split <;> rfl
  · simp [freq_scheduler_request_status, freq_scheduler_cursor_commit,
      freq_scheduler_error_ok]

/-- Claim C8, witness: the bound and the empty-schedule case at concrete
inputs. -/
theorem request_length_bound_and_empty_witness :
    ((freq_scheduler_request ⟨-1, 0⟩ 100 (fun _ => none) 100 []).2).length ≤ 100
    ∧ freq_scheduler_request ⟨-1, 0⟩ 100 (fun _ => none) 100 [] = ([], []) :=
  ⟨(request_length_bound_and_empty ⟨-1, 0⟩ 100 (fun _ => none) 100 [] "tm" []).1,
   (request_length_bound_and_empty ⟨-1, 0⟩ 100 (fun _ => none) 100 [] "tm" []).2.1
     rfl⟩

/-- Claim C9, counterexample. The error record is never cleared on success:
with a stale record of code 1 from an earlier failed operation, a request in
which every store operation succeeds (`commit_rc = 0`) still returns a
non-success code — `freq_scheduler_cursor_commit` hands back the stale
`sch->error->code`, the `!= 0` test sends the call to `on_error`, and the
caller sees the internal-error code 3 instead of success. -/
theorem stale_error_code_returned_after_success :
    freq_scheduler_request_status ⟨1, ["earlier failure"]⟩ 0 "tm" =
      (⟨3, ["freq_scheduler_request"]⟩, 3) ∧
    (3 : ℕ) ≠ freq_scheduler_error_ok := by
  constructor
  · simp [freq_scheduler_request_status, freq_scheduler_cursor_commit,
      error_set, freq_scheduler_error_internal]
  · simp [freq_scheduler_error_ok]

/-- Claim C9, amended. The last-error record persists across successful
operations and is overwritten only by the next failure: a fully successful
request returns the success code exactly when no earlier operation failed;
with any stale non-zero code a successful request still returns a non-success
code; and a failing operation (here `freq_scheduler_cursor_open` with a
failed transaction begin) does overwrite the record with a fresh chain. -/
theorem error_record_persistence
    (msgs : List String) (tm txn_msg : String) (e : ErrorRec) :
    freq_scheduler_request_status ⟨freq_scheduler_error_ok, msgs⟩ 0 tm =
      (⟨freq_scheduler_error_ok, msgs⟩, freq_scheduler_error_ok)
    ∧ (e.code ≠ freq_scheduler_error_ok →
        (freq_scheduler_request_status e 0 tm).2 ≠ freq_scheduler_error_ok)
    ∧ (freq_scheduler_cursor_open e 1 txn_msg 0).1 =
        error_add (error_add (error_set e freq_scheduler_error_internal
          "freq_scheduler_cursor_open") "starting transaction") txn_msg := by
  refine ⟨?_, ?_, ?_⟩
  · simp [freq_scheduler_request_status, freq_scheduler_cursor_commit,
      freq_scheduler_error_ok]
  · intro hne
    simp only [freq_scheduler_error_ok] at hne
    simp [freq_scheduler_request_status, freq_scheduler_cursor_commit, hne,
      error_set, freq_scheduler_error_internal, freq_scheduler_error_ok]
  · simp [freq_scheduler_cursor_open]

/-- Claim C9, witness: the amended statement applied at concrete records. -/
theorem error_record_persistence_witness :
    freq_scheduler_request_status ⟨freq_scheduler_error_ok, []⟩ 0 "tm" =
      (⟨freq_scheduler_error_ok, []⟩, freq_scheduler_error_ok)
    ∧ (freq_scheduler_request_status ⟨1, []⟩ 0 "tm").2 ≠
        freq_scheduler_error_ok :=
  ⟨(error_record_persistence [] "tm" "x" ⟨1, []⟩).1,
   (error_record_persistence [] "tm" "x" ⟨1, []⟩).2.1 (by decide)⟩

/-- Claim C10. When the mdb chain (`mdb_dbi_open || mdb_set_compare ||
mdb_cursor_open`) fails after the transaction has begun,
`freq_scheduler_cursor_open` writes NULL to `*cursor` and returns the
scheduler's pre-existing error code — the success code when no earlier
operation failed — without recording any new error: the local message
variables are assigned but the function falls through to
`return sch->error->code`. -/
theorem cursor_open_mdb_failure_stale_code (e : ErrorRec) (txn_msg : String)
    (mdb_rc : ℕ) (hrc : mdb_rc ≠ 0) :
    freq_scheduler_cursor_open e 0 txn_msg mdb_rc = (e, none, e.code)
    ∧ (e.code = freq_scheduler_error_ok →
        (freq_scheduler_cursor_open e 0 txn_msg mdb_rc).2.2 =
          freq_scheduler_error_ok) := by
  have h1 : freq_scheduler_cursor_open e 0 txn_msg mdb_rc = (e, none, e.code) := by
    simp [freq_scheduler_cursor_open, hrc]
  exact ⟨h1, fun hok => by rw [h1]; exact hok⟩

/-- Claim C10, witness: a failed mdb chain on a clean scheduler yields a NULL
cursor and the success code. -/
theorem cursor_open_mdb_failure_stale_code_witness :
    freq_scheduler_cursor_open ⟨freq_scheduler_error_ok, []⟩ 0 "tm" 1 =
      (⟨freq_scheduler_error_ok, []⟩, none, freq_scheduler_error_ok) :=
  (cursor_open_mdb_failure_stale_code ⟨freq_scheduler_error_ok, []⟩ "tm" 1
    (by decide)).1
